import Mathlib

/-!
# Verification of the git-changelog parser (`src/parser.rs`, `src/conf.rs`)

A shallow embedding of the commit-classification and tag-bucketing pipeline
of the `git-changelog` repository, together with proofs about it.

The git backend (repository discovery, revwalk setup, tag enumeration,
commit lookup) is an external collaborator: the embedding takes as input
the sequence of enumerated tag-name resolutions and the sequence of walked
commits in oldest-first walk order, exactly the data the `git2` calls hand
to the loops in `Repository::try_from`.  Logging (`warn!`, `info!`,
`error!`) is modelled by an explicit list of structured log entries
threaded through the computation.

One modelling caveat, stated once here: the Rust code stores the per-release
kind buckets in `std::collections::HashMap<String, Vec<Commit>>`.  The
embedding represents that map as an association list in which `entry(..)
.or_insert_with(Vec::new).push(..)` appends a fresh key at the end; lookup,
insertion and emptiness agree with the `HashMap`, but the *iteration order*
of a `std::collections::HashMap` is seed-dependent and unspecified, so the
positional order of keys in the association list is a representation
artifact, not a property of the source.
-/

namespace GitChangelog

/-- `conf::Repository` from `src/conf.rs` (the path is kept as a string;
it is only handed to the external git backend). -/
structure ConfRepository where
  name : String
  path : String
  scopes : Option (List String)
  range : Option String
  link : Option String
  deriving Repr, DecidableEq

/-- `conf::Configuration` from `src/conf.rs`; `kinds` is a
`HashMap<String, String>` modelled as an association list with
first-match lookup. -/
structure Configuration where
  kinds : List (String × String)
  repositories : List ConfRepository
  deriving Repr, DecidableEq

/-- Association-list lookup, modelling `HashMap::get` / `contains_key`. -/
def lookupAssoc {α : Type} (m : List (String × α)) (k : String) : Option α :=
  match m with
  | [] => none
  | (k', v) :: rest => if k' = k then some v else lookupAssoc rest k

/-- Association-list insert modelling `HashMap::insert`: overwrite the
value when the key is present, otherwise add the binding. -/
def hmInsert {α : Type} (m : List (String × α)) (k : String) (v : α) :
    List (String × α) :=
  match m with
  | [] => [(k, v)]
  | (k', v') :: rest =>
      if k' = k then (k', v) :: rest else (k', v') :: hmInsert rest k v

/-- The raw data of one walked commit, as surfaced by the `git2` accessors
used in `Commit::try_from`: full object id, author / committer identity
names (each possibly absent), summary and full message (each possibly
absent), and the commit timestamp in seconds since the epoch. -/
structure CommitData where
  id : String
  authorName : Option String
  committerName : Option String
  summary : Option String
  messageBody : Option String
  timeSeconds : Int
  deriving Repr, DecidableEq

/-- `parser::Commit`: the normalized commit record. -/
structure Commit where
  hash : String
  message : String
  author : String
  date : String
  link : Option String
  deriving Repr, DecidableEq

/-- Days-since-epoch to civil (year, month, day), for the `%F` date format
applied to the UTC timestamp (`DateTime::<Utc>::from_utc(...).date()
.format("%F")`). -/
def civilFromDays (z0 : Int) : Int × Int × Int :=
  let z := z0 + 719468
  let era := Int.fdiv z 146097
  let doe := z - era * 146097
  let yoe := Int.fdiv (doe - Int.fdiv doe 1460 + Int.fdiv doe 36524
    - Int.fdiv doe 146096) 365
  let y := yoe + era * 400
  let doy := doe - (365 * yoe + Int.fdiv yoe 4 - Int.fdiv yoe 100)
  let mp := Int.fdiv (5 * doy + 2) 153
  let d := doy - Int.fdiv (153 * mp + 2) 5 + 1
  let m := mp + (if mp < 10 then 3 else -9)
  (y + (if m ≤ 2 then 1 else 0), m, d)

/-- Left-pad the decimal representation of a nonnegative integer with
zeros up to the given width. -/
def padInt (width : Nat) (n : Int) : String :=
  let s := toString n.toNat
  let rec pad (k : Nat) (s : String) : String :=
    match k with
    | 0 => s
    | k + 1 => if s.length < width then pad k ("0" ++ s) else s
  pad width s

/-- `%F` formatting (`YYYY-MM-DD`) of a UTC timestamp in seconds. -/
def formatDate (seconds : Int) : String :=
  let days := Int.fdiv seconds 86400
  let (y, m, d) := civilFromDays days
  padInt 4 y ++ "-" ++ padInt 2 m ++ "-" ++ padInt 2 d

/-- The `strfmt` substitution used for the commit link: the template is
scanned for `\x7bname\x7d` placeholders, the only provided variable being
`hash`; a placeholder with any other name, or an unmatched brace, is an
error (`strfmt` crate semantics for this call site). -/
def strfmtHashChars (hash : List Char) : List Char → Except String (List Char)
  | [] => Except.ok []
  | '{' :: '{' :: r => (strfmtHashChars hash r).map (fun t => '{' :: t)
  | '{' :: r =>
      let key := r.takeWhile (fun c => c ≠ '}')
      match h : r.drop key.length with
      | '}' :: r2 =>
          if key = "hash".toList then
            (strfmtHashChars hash r2).map (fun t => hash ++ t)
          else
            Except.error "Invalid key"
      | _ => Except.error "Unterminated brace"
  | '}' :: '}' :: r => (strfmtHashChars hash r).map (fun t => '}' :: t)
  | '}' :: _ => Except.error "Unmatched brace"
  | c :: r => (strfmtHashChars hash r).map (fun t => c :: t)
termination_by l => l.length
decreasing_by
  all_goals simp_all
  all_goals try omega
  all_goals
    (have hlen := congrArg List.length h); simp at hlen; omega

/-- `strfmt(layout, vars)` with `vars = \x7b "hash" ↦ hash \x7d`. -/
def strfmtHash (layout hash : String) : Except String String :=
  (strfmtHashChars hash.toList layout.toList).map List.asString

/-- `Commit::try_from((&conf::Repository, &git::Commit))` from
`src/parser.rs` lines 32-80: author falls back from author to committer
identity, message from summary to full body, the date is the `%F`-formatted
UTC timestamp, the link (when a template is configured) substitutes the
*full* hash, and only afterwards is the exposed hash truncated to 7
characters. -/
def commitTryFrom (conf : ConfRepository) (c : CommitData) :
    Except String Commit := do
  let author ←
    match c.authorName with
    | some a => Except.ok a
    | none =>
        match c.committerName with
        | some cm => Except.ok cm
        | none => Except.error "No such author or commiter"
  let message ←
    match c.summary with
    | some s => Except.ok s
    | none =>
        match c.messageBody with
        | some m => Except.ok m
        | none => Except.error "No such message or summary"
  let hash := c.id
  let date := formatDate c.timeSeconds
  let link ←
    match conf.link with
    | some layout =>
        match strfmtHash layout hash with
        | Except.ok l => Except.ok (some l)
        | Except.error e =>
            Except.error ("could not format commit link, " ++ e)
    | none => Except.ok none
  Except.ok ⟨hash.take 7, message, author, date, link⟩

/-!
## The message pattern

`PATTERN` in `src/parser.rs`:
`(?P<kind>[\w \-\./\\]+)(\((?P<scope>[\w \-\./\\]+)\))?: (?P<message>[\w \-\./\\]+)`
matched *unanchored* (`Regex::is_match` / `captures` search for a match
anywhere in the summary).  `\w` is modelled as ASCII alphanumeric or
underscore.  Because the character class contains neither `(`, `)` nor
`:`, the backtracking search is deterministic: at any starting position
only the maximal run of class characters can serve as `kind` (a shorter
run would have to be followed by `(` or `:`, but is followed by a class
character), and likewise for `scope`, so leftmost-first matching reduces
to the maximal-munch procedure below.
-/

/-- Membership in the character class `[\w \-\./\\]` of `PATTERN`. -/
def isPatChar (c : Char) : Bool :=
  c.isAlphanum || c = '_' || c = ' ' || c = '-' || c = '.' || c = '/'
    || c = '\\'

/-- Attempt to match `PATTERN` starting exactly at the head of the list,
returning the `kind` and optional `scope` captures. -/
def matchAt (s : List Char) : Option (String × Option String) :=
  let k := s.takeWhile isPatChar
  if k.isEmpty then none
  else
    match s.drop k.length with
    | '(' :: r1 =>
        let sc := r1.takeWhile isPatChar
        if sc.isEmpty then none
        else
          match r1.drop sc.length with
          | ')' :: ':' :: ' ' :: r2 =>
              if (r2.takeWhile isPatChar).isEmpty then none
              else some (k.asString, some sc.asString)
          | _ => none
    | ':' :: ' ' :: r2 =>
        if (r2.takeWhile isPatChar).isEmpty then none
        else some (k.asString, none)
    | _ => none

/-- Leftmost (unanchored) match of `PATTERN`, as performed by
`re.is_match` / `re.captures`: the earliest starting position at which
`matchAt` succeeds wins. -/
def findCaptures : List Char → Option (String × Option String)
  | [] => none
  | c :: rest =>
      match matchAt (c :: rest) with
      | some x => some x
      | none => findCaptures rest

/-- The merge-commit test of `src/parser.rs` line 186
(`str::starts_with`, written over character lists so that it reduces). -/
def isMergeMessage (message : String) : Bool :=
  List.isPrefixOf "Merge pull request".toList message.toList
    || List.isPrefixOf "Merge branch".toList message.toList

/-- `parser::Tag`: a release group; `commits` models the
`HashMap<String, Vec<Commit>>` of kind buckets (see the file header for
the ordering caveat on this association list). -/
structure Tag where
  name : String
  commits : List (String × List Commit)
  deriving Repr, DecidableEq

/-- `parser::Repository`: the per-repository result. -/
structure Repository where
  name : String
  tags : List Tag
  deriving Repr, DecidableEq

/-- Structured stand-ins for the `warn!` / `info!` / `error!` calls. -/
inductive LogEntry where
  | lightweightTag (hash : String)
  | skipMerge (hash : String)
  | parseError (hash message : String)
  | unknownKind (hash kind : String)
  | skipCommit (hash : String)
  | scopeWarn (hash scope : String)
  deriving Repr, DecidableEq

/-- What one enumerated tag name resolves to: `revparse_single` may fail,
or yield an object that is not an annotated tag (`into_tag` fails, e.g. a
lightweight tag pointing straight at a commit object), or yield an
annotated tag object with a target commit id and a display name. -/
inductive TagResolution where
  | err
  | notTag (objectId : String)
  | annotated (target : String) (name : String)
  deriving Repr, DecidableEq

/-- The tag-index loop of `src/parser.rs` lines 129-150, with the running
map and log as accumulators: a resolution failure is propagated as an
error (the `?` on `revparse_single`), a non-tag object is warned about
(with the object id truncated to 7 characters) and skipped, and an
annotated tag inserts `target id ↦ display name`. -/
def buildTagIndexAux (idx : List (String × String)) (log : List LogEntry) :
    List TagResolution →
    Except String (List (String × String) × List LogEntry)
  | [] => Except.ok (idx, log)
  | TagResolution.err :: _ =>
      Except.error "could not retrieve object for tag"
  | TagResolution.notTag objectId :: rest =>
      buildTagIndexAux idx
        (log ++ [LogEntry.lightweightTag (objectId.take 7)]) rest
  | TagResolution.annotated target name :: rest =>
      buildTagIndexAux (hmInsert idx target name) log rest

/-- The tag index built from the enumerated tag names. -/
def buildTagIndex (rs : List TagResolution) :
    Except String (List (String × String) × List LogEntry) :=
  buildTagIndexAux [] [] rs

/-- `commits.entry(label).or_insert_with(Vec::new).push(c)`: append to
the bucket when the key exists, otherwise create a fresh singleton
bucket. -/
def pushKind (m : List (String × List Commit)) (label : String)
    (c : Commit) : List (String × List Commit) :=
  match m with
  | [] => [(label, [c])]
  | (k, v) :: rest =>
      if k = label then (k, v ++ [c]) :: rest
      else (k, v) :: pushKind rest label c

/-- The mutable state of the walk loop: the current accumulator map
`commits`, the closed groups pushed to `repository.tags` so far, and the
log. -/
structure StepState where
  commits : List (String × List Commit)
  groups : List Tag
  log : List LogEntry
  deriving Repr, DecidableEq

/-- `str::split(',')` over a character list: every comma separates two
(possibly empty) pieces, and the result always has at least one piece. -/
def splitComma : List Char → List (List Char)
  | [] => [[]]
  | c :: rest =>
      let r := splitComma rest
      if c = ',' then [] :: r
      else
        match r with
        | [] => [[c]]
        | h :: t => (c :: h) :: t

/-- `scope.as_str().split(',')` as a list of strings. -/
def splitCommaStr (s : String) : List String :=
  (splitComma s.toList).map List.asString

/-- The per-sub-scope warnings of `src/parser.rs` lines 217-227: the scope
is split on commas and each sub-scope missing from the configured scope
list is warned about; the inner `continue` only advances the sub-scope
loop, so these warnings have no further effect. -/
def scopeWarnings (conf : ConfRepository) (hash : String)
    (scope : Option String) : List LogEntry :=
  match scope, conf.scopes with
  | some sc, some allowed =>
      ((splitCommaStr sc).filter (fun ss => ¬ allowed.contains ss)).map
        (fun _ => LogEntry.scopeWarn hash sc)
  | _, _ => []

/-- The body of the walk loop, `src/parser.rs` lines 174-247, for one
commit: normalize (wrapping a failure with the commit id — fatal), skip
merge commits, skip messages the pattern does not match, extract the
`kind` and `scope` captures, skip kinds absent from the configured kind
map, warn about (but do not act on) scope mismatches, push the commit
into the bucket of the kind's canonical label, and — only on this path —
close the accumulator into a group when the tag index maps this commit's
id to a tag name. -/
def processCommit (kinds : List (String × String)) (conf : ConfRepository)
    (tagIdx : List (String × String)) (st : StepState) (cd : CommitData) :
    Except String StepState :=
  match commitTryFrom conf cd with
  | Except.error e =>
      Except.error ("could not parse commit '" ++ cd.id ++ "', " ++ e)
  | Except.ok commit =>
      if isMergeMessage commit.message then
        Except.ok { st with log := st.log ++ [LogEntry.skipMerge commit.hash] }
      else
        match findCaptures commit.message.toList with
        | none =>
            Except.ok
              { st with
                log := st.log
                  ++ [LogEntry.parseError commit.hash commit.message] }
        | some (kind, scope) =>
            match lookupAssoc kinds kind with
            | none =>
                Except.ok
                  { st with
                    log := st.log ++ [LogEntry.unknownKind commit.hash kind,
                      LogEntry.skipCommit commit.hash] }
            | some label =>
                let log' := st.log ++ scopeWarnings conf commit.hash scope
                let commits' := pushKind st.commits label commit
                match lookupAssoc tagIdx cd.id with
                | some tname =>
                    Except.ok
                      ⟨[], st.groups ++ [⟨tname, commits'⟩], log'⟩
                | none =>
                    Except.ok { st with commits := commits', log := log' }

/-- The walk loop folded over the oldest-first commit sequence. -/
def walkCommits (kinds : List (String × String)) (conf : ConfRepository)
    (tagIdx : List (String × String)) (st : StepState) :
    List CommitData → Except String StepState
  | [] => Except.ok st
  | cd :: rest =>
      match processCommit kinds conf tagIdx st cd with
      | Except.ok st' => walkCommits kinds conf tagIdx st' rest
      | Except.error e => Except.error e

/-- The per-repository data handed over by the git backend: the
enumerated tag-name resolutions and the walked commits in oldest-first
order (`Sort::TIME | Sort::REVERSE`). -/
structure GitData where
  tagResolutions : List TagResolution
  commits : List CommitData
  deriving Repr, DecidableEq

/-- `Repository::try_from((&HashMap<String, String>, &conf::Repository))`,
`src/parser.rs` lines 115-258: build the tag index, walk the commits,
close a trailing non-empty accumulator into a "Technical preview" group,
and reverse the group list.  The log is returned alongside the
repository. -/
def repositoryTryFrom (kinds : List (String × String))
    (conf : ConfRepository) (gd : GitData) :
    Except String (Repository × List LogEntry) :=
  match buildTagIndex gd.tagResolutions with
  | Except.error e => Except.error e
  | Except.ok (tagIdx, log0) =>
      match walkCommits kinds conf tagIdx ⟨[], [], log0⟩ gd.commits with
      | Except.error e => Except.error e
      | Except.ok final =>
          let groups :=
            if final.commits.isEmpty then final.groups
            else final.groups ++ [⟨"Technical preview", final.commits⟩]
          Except.ok (⟨conf.name, groups.reverse⟩, final.log)

/-- `parser::Changelog`. -/
structure Changelog where
  repositories : List Repository
  deriving Repr, DecidableEq

/-- The loop of `Changelog::try_from`, `src/parser.rs` lines 272-283:
process the given repositories in order, pushing each result; a failure
is wrapped with the repository's name and aborts the loop. -/
def assembleRepos (kinds : List (String × String))
    (git : ConfRepository → GitData) :
    List ConfRepository → Except String (List Repository)
  | [] => Except.ok []
  | r :: rest =>
      match repositoryTryFrom kinds r (git r) with
      | Except.ok p =>
          match assembleRepos kinds git rest with
          | Except.ok repos => Except.ok (p.1 :: repos)
          | Except.error e => Except.error e
      | Except.error e =>
          Except.error
            ("could not process repository '" ++ r.name ++ "', " ++ e)

/-- `Changelog::try_from(Rc<Configuration>)`, `src/parser.rs` lines
266-287: process the configured repositories in configuration order,
wrapping any failure with the repository's name and aborting the run.
`git` supplies each configured repository's backend data (repository
discovery by path is external). -/
def changelogTryFrom (conf : Configuration)
    (git : ConfRepository → GitData) : Except String Changelog :=
  match assembleRepos conf.kinds git conf.repositories with
  | Except.ok repos => Except.ok ⟨repos⟩
  | Except.error e => Except.error e

/-!
## Concrete fixtures

Small concrete inputs used by counterexamples and witnesses.
-/

/-- A repository configuration with no scope restriction. -/
def exConf : ConfRepository := ⟨"r", "/p", none, none, none⟩

/-- A repository configuration restricting scopes to `api`. -/
def exConfScoped : ConfRepository := ⟨"r", "/p", some ["api"], none, none⟩

/-- A kind vocabulary mapping `feat` to `Features`. -/
def exKinds : List (String × String) := [("feat", "Features")]

/-- A well-formed feature commit. -/
def cdFeat : CommitData := ⟨"aaa", some "alice", none, some "feat: one", none, 0⟩

/-- A merge commit (skipped by classification). -/
def cdMerge : CommitData :=
  ⟨"bbb", some "bob", none, some "Merge branch main", none, 0⟩

/-- A commit with no author and no committer identity. -/
def cdNoAuthor : CommitData := ⟨"ccc", none, none, some "feat: two", none, 0⟩

/-- A well-formed feature commit carrying a scope. -/
def cdScoped : CommitData :=
  ⟨"ddd", some "dana", none, some "feat(web): two", none, 0⟩

/-- The normalized record of `cdFeat`. -/
def recFeat : Commit := ⟨"aaa", "feat: one", "alice", "1970-01-01", none⟩

/-- The normalized record of `cdScoped`. -/
def recScoped : Commit := ⟨"ddd", "feat(web): two", "dana", "1970-01-01", none⟩

/-- Git data in which the annotated tag `v1` points at the merge commit
`cdMerge`, which is the last walked commit. -/
def gdTagOnMerge : GitData :=
  ⟨[TagResolution.annotated "bbb" "v1"], [cdFeat, cdMerge]⟩

/-- Git data whose second walked commit has no identity at all. -/
def gdNoAuthor : GitData := ⟨[], [cdFeat, cdNoAuthor]⟩

/-- The worked example of the specification: `feat(api): add endpoint`. -/
def cdApi : CommitData :=
  ⟨"eee", some "eve", none, some "feat(api): add endpoint", none, 0⟩

/-- The normalized record of `cdApi`. -/
def recApi : Commit :=
  ⟨"eee", "feat(api): add endpoint", "eve", "1970-01-01", none⟩

/-- A one-repository configuration. -/
def exConfiguration : Configuration := ⟨exKinds, [exConf]⟩

/-- The git backend data of every configured repository. -/
def exGit : ConfRepository → GitData := fun _ => gdTagOnMerge

/-!
## Helper lemmas
-/

/-- Every binding of `hmInsert m k v` is either an old binding or the new
one. -/
theorem hmInsert_mem {α : Type} (m : List (String × α)) (k0 : String)
    (v0 : α) : ∀ p ∈ hmInsert m k0 v0, p ∈ m ∨ p = (k0, v0) := by
  induction m with
  | nil =>
      intro p hp
      simp [hmInsert] at hp
      exact Or.inr hp
  | cons kv rest ih =>
      intro p hp
      rcases kv with ⟨k', v'⟩
      by_cases hk : k' = k0
      · simp [hmInsert, hk] at hp
        rcases hp with hp | hp
        · exact Or.inr (by simp [hp])
        · exact Or.inl (List.mem_cons_of_mem _ hp)
      · simp [hmInsert, hk] at hp
        rcases hp with hp | hp
        · exact Or.inl (by simp [hp])
        · rcases ih p hp with h | h
          · exact Or.inl (List.mem_cons_of_mem _ h)
          · exact Or.inr h

/-- Every entry of `pushKind m label c` either carries the pushed label or
was already in `m`. -/
theorem pushKind_mem (m : List (String × List Commit)) (label : String)
    (c : Commit) : ∀ p ∈ pushKind m label c, p.1 = label ∨ p ∈ m := by
  induction m with
  | nil =>
      intro p hp
      simp [pushKind] at hp
      exact Or.inl (by simp [hp])
  | cons kv rest ih =>
      intro p hp
      rcases kv with ⟨k, v⟩
      by_cases hk : k = label
      · simp [pushKind, hk] at hp
        rcases hp with hp | hp
        · exact Or.inl (by simp [hp])
        · exact Or.inr (List.mem_cons_of_mem _ hp)
      · simp [pushKind, hk] at hp
        rcases hp with hp | hp
        · exact Or.inr (by simp [hp])
        · rcases ih p hp with h | h
          · exact Or.inl h
          · exact Or.inr (List.mem_cons_of_mem _ h)

/-- `pushKind` never returns the empty map. -/
theorem pushKind_ne_nil (m : List (String × List Commit)) (label : String)
    (c : Commit) : pushKind m label c ≠ [] := by
  cases m with
  | nil => simp [pushKind]
  | cons kv rest =>
      rcases kv with ⟨k, v⟩
      by_cases hk : k = label <;> simp [pushKind, hk]

/-- `pushKind` keeps every bucket non-empty. -/
theorem pushKind_buckets (m : List (String × List Commit)) (label : String)
    (c : Commit) (h : ∀ p ∈ m, p.2 ≠ []) :
    ∀ p ∈ pushKind m label c, p.2 ≠ [] := by
  induction m with
  | nil =>
      intro p hp
      simp [pushKind] at hp
      simp [hp]
  | cons kv rest ih =>
      intro p hp
      rcases kv with ⟨k, v⟩
      by_cases hk : k = label
      · simp [pushKind, hk] at hp
        rcases hp with hp | hp
        · simp [hp]
        · exact h p (List.mem_cons_of_mem _ hp)
      · simp [pushKind, hk] at hp
        rcases hp with hp | hp
        · exact hp ▸ h (k, v) (by simp)
        · exact ih (fun q hq => h q (List.mem_cons_of_mem _ hq)) p hp

/-- The pushed commit is found in the bucket of its label after
`pushKind`. -/
theorem pushKind_lookup (m : List (String × List Commit)) (label : String)
    (c : Commit) :
    ∃ v, lookupAssoc (pushKind m label c) label = some v ∧ c ∈ v := by
  induction m with
  | nil => exact ⟨[c], by simp [pushKind, lookupAssoc]⟩
  | cons kv rest ih =>
      rcases kv with ⟨k, v⟩
      by_cases hk : k = label
      · exact ⟨v ++ [c], by simp [pushKind, lookupAssoc, hk]⟩
      · rcases ih with ⟨v', hv', hc⟩
        exact ⟨v', by simp [pushKind, lookupAssoc, hk, hv'], hc⟩

/-- Walk-step equation: a merge commit is skipped with an informational
log entry. -/
theorem processCommit_merge (kinds : List (String × String))
    (conf : ConfRepository) (tagIdx : List (String × String))
    (st : StepState) (cd : CommitData) (c : Commit)
    (h : commitTryFrom conf cd = Except.ok c)
    (hm : isMergeMessage c.message = true) :
    processCommit kinds conf tagIdx st cd =
      Except.ok { st with log := st.log ++ [LogEntry.skipMerge c.hash] } := by
  unfold processCommit
  rw [h]
  simp [hm]

/-- Walk-step equation: a message the pattern does not match is skipped
with a warning. -/
theorem processCommit_noParse (kinds : List (String × String))
    (conf : ConfRepository) (tagIdx : List (String × String))
    (st : StepState) (cd : CommitData) (c : Commit)
    (h : commitTryFrom conf cd = Except.ok c)
    (hm : isMergeMessage c.message = false)
    (hf : findCaptures c.message.toList = none) :
    processCommit kinds conf tagIdx st cd =
      Except.ok
        { st with
          log := st.log ++ [LogEntry.parseError c.hash c.message] } := by
  have hf' : findCaptures c.message.data = none := hf
  unfold processCommit
  rw [h]
  simp [hm, hf']

/-- Walk-step equation: a kind missing from the configured kind map skips
the commit with warnings. -/
theorem processCommit_unknownKind (kinds : List (String × String))
    (conf : ConfRepository) (tagIdx : List (String × String))
    (st : StepState) (cd : CommitData) (c : Commit)
    (kind : String) (scope : Option String)
    (h : commitTryFrom conf cd = Except.ok c)
    (hm : isMergeMessage c.message = false)
    (hf : findCaptures c.message.toList = some (kind, scope))
    (hl : lookupAssoc kinds kind = none) :
    processCommit kinds conf tagIdx st cd =
      Except.ok
        { st with
          log := st.log ++ [LogEntry.unknownKind c.hash kind,
            LogEntry.skipCommit c.hash] } := by
  have hf' : findCaptures c.message.data = some (kind, scope) := hf
  unfold processCommit
  rw [h]
  simp [hm, hf', hl]

/-- Walk-step equation: a classified commit at a tag boundary is pushed
into its kind bucket and the accumulator is closed into a group named
after the tag. -/
theorem processCommit_boundary (kinds : List (String × String))
    (conf : ConfRepository) (tagIdx : List (String × String))
    (st : StepState) (cd : CommitData) (c : Commit)
    (kind label tname : String) (scope : Option String)
    (h : commitTryFrom conf cd = Except.ok c)
    (hm : isMergeMessage c.message = false)
    (hf : findCaptures c.message.toList = some (kind, scope))
    (hl : lookupAssoc kinds kind = some label)
    (ht : lookupAssoc tagIdx cd.id = some tname) :
    processCommit kinds conf tagIdx st cd =
      Except.ok
        ⟨[], st.groups ++ [⟨tname, pushKind st.commits label c⟩],
          st.log ++ scopeWarnings conf c.hash scope⟩ := by
  have hf' : findCaptures c.message.data = some (kind, scope) := hf
  unfold processCommit
  rw [h]
  simp [hm, hf', hl, ht]

/-- Walk-step equation: a classified commit away from any tag boundary is
pushed into its kind bucket and the accumulator stays open. -/
theorem processCommit_push (kinds : List (String × String))
    (conf : ConfRepository) (tagIdx : List (String × String))
    (st : StepState) (cd : CommitData) (c : Commit)
    (kind label : String) (scope : Option String)
    (h : commitTryFrom conf cd = Except.ok c)
    (hm : isMergeMessage c.message = false)
    (hf : findCaptures c.message.toList = some (kind, scope))
    (hl : lookupAssoc kinds kind = some label)
    (ht : lookupAssoc tagIdx cd.id = none) :
    processCommit kinds conf tagIdx st cd =
      Except.ok
        { st with
          commits := pushKind st.commits label c,
          log := st.log ++ scopeWarnings conf c.hash scope } := by
  have hf' : findCaptures c.message.data = some (kind, scope) := hf
  unfold processCommit
  rw [h]
  simp [hm, hf', hl, ht]

/-- A successfully normalized commit never aborts the walk step. -/
theorem processCommit_ok (kinds : List (String × String))
    (conf : ConfRepository) (tagIdx : List (String × String))
    (st : StepState) (cd : CommitData) (c : Commit)
    (h : commitTryFrom conf cd = Except.ok c) :
    ∃ st', processCommit kinds conf tagIdx st cd = Except.ok st' := by
  by_cases hm : isMergeMessage c.message
  · exact ⟨_, processCommit_merge kinds conf tagIdx st cd c h hm⟩
  · rw [Bool.not_eq_true] at hm
    cases hf : findCaptures c.message.toList with
    | none => exact ⟨_, processCommit_noParse kinds conf tagIdx st cd c h hm hf⟩
    | some p =>
        rcases p with ⟨kind, scope⟩
        cases hl : lookupAssoc kinds kind with
        | none =>
            exact ⟨_,
              processCommit_unknownKind kinds conf tagIdx st cd c kind scope
                h hm hf hl⟩
        | some label =>
            cases ht : lookupAssoc tagIdx cd.id with
            | none =>
                exact ⟨_,
                  processCommit_push kinds conf tagIdx st cd c kind label
                    scope h hm hf hl ht⟩
            | some tname =>
                exact ⟨_,
                  processCommit_boundary kinds conf tagIdx st cd c kind label
                    tname scope h hm hf hl ht⟩

/-- A normalization failure aborts the walk step, wrapped with the commit
id. -/
theorem processCommit_err (kinds : List (String × String))
    (conf : ConfRepository) (tagIdx : List (String × String))
    (st : StepState) (cd : CommitData) (e : String)
    (h : commitTryFrom conf cd = Except.error e) :
    processCommit kinds conf tagIdx st cd =
      Except.error ("could not parse commit '" ++ cd.id ++ "', " ++ e) := by
  unfold processCommit
  rw [h]

/-- An invariant preserved by every walk step is preserved by the whole
walk. -/
theorem walkCommits_inv (kinds : List (String × String))
    (conf : ConfRepository) (tagIdx : List (String × String))
    (P : StepState → Prop)
    (hstep : ∀ st cd st', P st →
      processCommit kinds conf tagIdx st cd = Except.ok st' → P st') :
    ∀ l st st', P st →
      walkCommits kinds conf tagIdx st l = Except.ok st' → P st' := by
  intro l
  induction l with
  | nil =>
      intro st st' hP hw
      simp [walkCommits] at hw
      exact hw ▸ hP
  | cons cd rest ih =>
      intro st st' hP hw
      unfold walkCommits at hw
      cases hp : processCommit kinds conf tagIdx st cd with
      | error e => rw [hp] at hw; exact absurd hw (by simp)
      | ok st1 =>
          rw [hp] at hw
          exact ih st1 st' (hstep st cd st1 hP hp) hw

/-- When every walked commit normalizes, the walk cannot abort. -/
theorem walkCommits_ok (kinds : List (String × String))
    (conf : ConfRepository) (tagIdx : List (String × String))
    (l : List CommitData)
    (h : ∀ x ∈ l, ∃ cx, commitTryFrom conf x = Except.ok cx) :
    ∀ st, ∃ st', walkCommits kinds conf tagIdx st l = Except.ok st' := by
  induction l with
  | nil => exact fun st => ⟨st, rfl⟩
  | cons cd rest ih =>
      intro st
      rcases h cd (by simp) with ⟨c, hc⟩
      rcases processCommit_ok kinds conf tagIdx st cd c hc with ⟨st1, hst1⟩
      rcases ih (fun x hx => h x (List.mem_cons_of_mem _ hx)) st1 with
        ⟨st', hst'⟩
      exact ⟨st', by unfold walkCommits; rw [hst1]; exact hst'⟩

/-- If the commits before `cd` all normalize and `cd` fails to normalize,
the walk over `pre ++ cd :: suf` aborts with the wrapped error. -/
theorem walkCommits_err (kinds : List (String × String))
    (conf : ConfRepository) (tagIdx : List (String × String))
    (pre : List CommitData) (cd : CommitData) (suf : List CommitData)
    (e : String)
    (hpre : ∀ x ∈ pre, ∃ cx, commitTryFrom conf x = Except.ok cx)
    (hcd : commitTryFrom conf cd = Except.error e) :
    ∀ st, walkCommits kinds conf tagIdx st (pre ++ cd :: suf) =
      Except.error ("could not parse commit '" ++ cd.id ++ "', " ++ e) := by
  induction pre with
  | nil =>
      intro st
      rw [List.nil_append]
      unfold walkCommits
      simp [processCommit_err kinds conf tagIdx st cd e hcd]
  | cons x rest ih =>
      intro st
      rcases hpre x (by simp) with ⟨cx, hcx⟩
      rcases processCommit_ok kinds conf tagIdx st x cx hcx with ⟨st1, hst1⟩
      have hrest := ih (fun y hy => hpre y (List.mem_cons_of_mem _ hy)) st1
      rw [List.cons_append]
      unfold walkCommits
      simp [hst1]
      exact hrest

/-- Tag-index construction with no resolution failure: the build
succeeds, every index entry stems from an annotated tag, every non-tag
object is warned about, and the starting log is preserved. -/
theorem buildTagIndexAux_ok :
    ∀ (rs : List TagResolution) (idx : List (String × String))
      (log : List LogEntry), TagResolution.err ∉ rs →
    ∃ idx' log', buildTagIndexAux idx log rs = Except.ok (idx', log') ∧
      (∀ k v, (k, v) ∈ idx' →
        (k, v) ∈ idx ∨ TagResolution.annotated k v ∈ rs) ∧
      (∀ oid, TagResolution.notTag oid ∈ rs →
        LogEntry.lightweightTag (oid.take 7) ∈ log') ∧
      (∀ e ∈ log, e ∈ log') := by
  intro rs
  induction rs with
  | nil =>
      intro idx log _
      exact ⟨idx, log, rfl, fun k v hk => Or.inl hk, by simp,
        fun e he => he⟩
  | cons r rest ih =>
      intro idx log hne
      cases r with
      | err => exact absurd (by simp) hne
      | notTag oid =>
          rcases ih idx (log ++ [LogEntry.lightweightTag (oid.take 7)])
              (fun hc => hne (List.mem_cons_of_mem _ hc)) with
            ⟨idx', log', hb, hidx, hwarn, hmono⟩
          refine ⟨idx', log', hb, ?_, ?_, ?_⟩
          · intro k v hk
            rcases hidx k v hk with h | h
            · exact Or.inl h
            · exact Or.inr (List.mem_cons_of_mem _ h)
          · intro oid' hoid'
            rcases List.mem_cons.mp hoid' with h | h
            · cases h
              exact hmono _ (by simp)
            · exact hwarn oid' h
          · exact fun e he => hmono e (List.mem_append_left _ he)
      | annotated t n =>
          rcases ih (hmInsert idx t n) log
              (fun hc => hne (List.mem_cons_of_mem _ hc)) with
            ⟨idx', log', hb, hidx, hwarn, hmono⟩
          refine ⟨idx', log', hb, ?_, ?_, hmono⟩
          · intro k v hk
            rcases hidx k v hk with h | h
            · rcases hmInsert_mem idx t n (k, v) h with h2 | h2
              · exact Or.inl h2
              · refine Or.inr ?_
                rw [Prod.mk.injEq] at h2
                simp [h2.1, h2.2]
            · exact Or.inr (List.mem_cons_of_mem _ h)
          · intro oid' hoid'
            rcases List.mem_cons.mp hoid' with h | h
            · exact absurd h (by simp)
            · exact hwarn oid' h

/-- The repository name of a successful walk is the configured name. -/
theorem repositoryTryFrom_name (kinds : List (String × String))
    (conf : ConfRepository) (gd : GitData) (r : Repository)
    (log : List LogEntry)
    (h : repositoryTryFrom kinds conf gd = Except.ok (r, log)) :
    r.name = conf.name := by
  unfold repositoryTryFrom at h
  split at h
  · exact absurd h (by simp)
  · split at h
    · exact absurd h (by simp)
    · simp only [Except.ok.injEq, Prod.mk.injEq] at h
      rw [← h.1]

/-- When the walk of every listed repository succeeds, assembling
succeeds and produces one result per repository, in order, keeping the
configured names. -/
theorem assembleRepos_ok (kinds : List (String × String))
    (git : ConfRepository → GitData) :
    ∀ l : List ConfRepository,
    (∀ p ∈ l, ∃ okp, repositoryTryFrom kinds p (git p) = Except.ok okp) →
    ∃ repos, assembleRepos kinds git l = Except.ok repos ∧
      repos.map Repository.name = l.map ConfRepository.name := by
  intro l
  induction l with
  | nil => exact fun _ => ⟨[], rfl, rfl⟩
  | cons r rest ih =>
      intro h
      rcases h r (by simp) with ⟨okp, hok⟩
      rcases okp with ⟨rep, lg⟩
      rcases ih (fun p hp => h p (List.mem_cons_of_mem _ hp)) with
        ⟨repos, hrepos, hnames⟩
      refine ⟨rep :: repos, ?_, ?_⟩
      · unfold assembleRepos
        rw [hok]
        simp only [hrepos]
      · simp only [List.map_cons, hnames,
          repositoryTryFrom_name kinds r (git r) rep lg hok]

/-- When an earlier repository fails, assembling fails with the wrapped
error of the first failing repository. -/
theorem assembleRepos_err (kinds : List (String × String))
    (git : ConfRepository → GitData) (pre : List ConfRepository)
    (r : ConfRepository) (suf : List ConfRepository) (e : String)
    (hpre : ∀ p ∈ pre, ∃ okp,
      repositoryTryFrom kinds p (git p) = Except.ok okp)
    (hr : repositoryTryFrom kinds r (git r) = Except.error e) :
    assembleRepos kinds git (pre ++ r :: suf) =
      Except.error
        ("could not process repository '" ++ r.name ++ "', " ++ e) := by
  induction pre with
  | nil =>
      rw [List.nil_append]
      unfold assembleRepos
      rw [hr]
  | cons x rest ih =>
      rcases hpre x (by simp) with ⟨okp, hok⟩
      have hrest := ih (fun p hp => hpre p (List.mem_cons_of_mem _ hp))
      rw [List.cons_append]
      unfold assembleRepos
      rw [hok]
      simp only [hrest]

/-- Characterization of a successful walk step: either the step only
logs (accumulator and groups untouched), or it pushes the commit into a
bucket (groups untouched), or it pushes the commit and closes the
accumulator into one appended group. -/
theorem processCommit_cases (kinds : List (String × String))
    (conf : ConfRepository) (tagIdx : List (String × String))
    (st : StepState) (cd : CommitData) (st' : StepState)
    (h : processCommit kinds conf tagIdx st cd = Except.ok st') :
    (st'.commits = st.commits ∧ st'.groups = st.groups) ∨
    (∃ c kind label,
      commitTryFrom conf cd = Except.ok c ∧
      lookupAssoc kinds kind = some label ∧
      st'.commits = pushKind st.commits label c ∧
      st'.groups = st.groups) ∨
    (∃ c kind label tname,
      commitTryFrom conf cd = Except.ok c ∧
      lookupAssoc kinds kind = some label ∧
      st'.commits = [] ∧
      st'.groups = st.groups ++ [⟨tname, pushKind st.commits label c⟩]) := by
  cases hc : commitTryFrom conf cd with
  | error e =>
      rw [processCommit_err kinds conf tagIdx st cd e hc] at h
      exact absurd h (by simp)
  | ok c =>
      by_cases hm : isMergeMessage c.message
      · rw [processCommit_merge kinds conf tagIdx st cd c hc hm] at h
        injection h with h2
        subst h2
        exact Or.inl ⟨rfl, rfl⟩
      · rw [Bool.not_eq_true] at hm
        cases hf : findCaptures c.message.toList with
        | none =>
            rw [processCommit_noParse kinds conf tagIdx st cd c hc hm hf] at h
            injection h with h2
            subst h2
            exact Or.inl ⟨rfl, rfl⟩
        | some p =>
            rcases p with ⟨kind, scope⟩
            cases hl : lookupAssoc kinds kind with
            | none =>
                rw [processCommit_unknownKind kinds conf tagIdx st cd c kind
                  scope hc hm hf hl] at h
                injection h with h2
                subst h2
                exact Or.inl ⟨rfl, rfl⟩
            | some label =>
                cases htg : lookupAssoc tagIdx cd.id with
                | none =>
                    rw [processCommit_push kinds conf tagIdx st cd c kind
                      label scope hc hm hf hl htg] at h
                    injection h with h2
                    subst h2
                    exact Or.inr (Or.inl ⟨c, kind, label, rfl, hl, rfl, rfl⟩)
                | some tname =>
                    rw [processCommit_boundary kinds conf tagIdx st cd c kind
                      label tname scope hc hm hf hl htg] at h
                    injection h with h2
                    subst h2
                    exact Or.inr (Or.inr
                      ⟨c, kind, label, tname, rfl, hl, rfl, rfl⟩)

/-- Unpack a successful `repositoryTryFrom` run into its tag index and
final walk state. -/
theorem repositoryTryFrom_ok (kinds : List (String × String))
    (conf : ConfRepository) (gd : GitData) (r : Repository)
    (log : List LogEntry)
    (h : repositoryTryFrom kinds conf gd = Except.ok (r, log)) :
    ∃ tagIdx log0 fin,
      buildTagIndex gd.tagResolutions = Except.ok (tagIdx, log0) ∧
      walkCommits kinds conf tagIdx ⟨[], [], log0⟩ gd.commits =
        Except.ok fin ∧
      r.tags =
        (if fin.commits.isEmpty then fin.groups
          else fin.groups ++ [⟨"Technical preview", fin.commits⟩]).reverse := by
  unfold repositoryTryFrom at h
  cases hb : buildTagIndex gd.tagResolutions with
  | error e => rw [hb] at h; exact absurd h (by simp)
  | ok p =>
      rcases p with ⟨tagIdx, log0⟩
      rw [hb] at h
      simp only [] at h
      cases hw : walkCommits kinds conf tagIdx ⟨[], [], log0⟩ gd.commits with
      | error e => rw [hw] at h; exact absurd h (by simp)
      | ok fin =>
          rw [hw] at h
          simp only [Except.ok.injEq, Prod.mk.injEq] at h
          exact ⟨tagIdx, log0, fin, rfl, hw, by rw [← h.1]⟩

/-!
## Claims
-/

/-- C1, counterexample: the claim asserts the accumulator is closed into a
tag-named group "regardless of whether that commit itself was skipped by
classification".  In the code the `continue` of every skip branch jumps
past the tag-boundary check, so with the annotated tag `v1` on the walked
merge commit `bbb` (the last commit), no group named `v1` is ever created:
the earlier feature commit ends up in the trailing "Technical preview"
group instead. -/
theorem c1_counterexample :
    buildTagIndex gdTagOnMerge.tagResolutions =
      Except.ok ([("bbb", "v1")], []) ∧
    gdTagOnMerge.commits = [cdFeat, cdMerge] ∧
    cdMerge.id = "bbb" ∧
    repositoryTryFrom exKinds exConf gdTagOnMerge =
      Except.ok
        (⟨"r", [⟨"Technical preview", [("Features", [recFeat])]⟩]⟩,
          [LogEntry.skipMerge "bbb"]) := by
  refine ⟨rfl, rfl, rfl, rfl⟩

/-- C1, amended: when the walked commit at a tag boundary is itself
successfully classified (normalized, not a merge commit, pattern-matched,
kind in the vocabulary), the step pushes it into its kind bucket and then
closes the accumulator into a ReleaseGroup named after the tag, appends
that group to the group list and resets the accumulator to empty — so
such a boundary commit belongs to that tag's group, not the following
one.  A boundary commit that is skipped by classification does not close
the group (see the counterexample). -/
theorem c1_boundary_closes_group (kinds : List (String × String))
    (conf : ConfRepository) (tagIdx : List (String × String))
    (st : StepState) (cd : CommitData) (c : Commit)
    (kind label tname : String) (scope : Option String)
    (h : commitTryFrom conf cd = Except.ok c)
    (hm : isMergeMessage c.message = false)
    (hf : findCaptures c.message.toList = some (kind, scope))
    (hl : lookupAssoc kinds kind = some label)
    (ht : lookupAssoc tagIdx cd.id = some tname) :
    ∃ g, processCommit kinds conf tagIdx st cd =
        Except.ok
          ⟨[], st.groups ++ [g], st.log ++ scopeWarnings conf c.hash scope⟩ ∧
      g.name = tname ∧
      ∃ v, lookupAssoc g.commits label = some v ∧ c ∈ v := by
  refine ⟨⟨tname, pushKind st.commits label c⟩,
    processCommit_boundary kinds conf tagIdx st cd c kind label tname scope
      h hm hf hl ht, rfl, pushKind_lookup st.commits label c⟩

/-- C1, witness for the amended claim at a concrete boundary commit. -/
theorem c1_boundary_closes_group_witness :
    commitTryFrom exConf cdFeat = Except.ok recFeat ∧
    isMergeMessage recFeat.message = false ∧
    findCaptures recFeat.message.toList = some ("feat", none) ∧
    lookupAssoc exKinds "feat" = some "Features" ∧
    lookupAssoc [("aaa", "v1")] cdFeat.id = some "v1" ∧
    ∃ g, processCommit exKinds exConf [("aaa", "v1")] ⟨[], [], []⟩ cdFeat =
        Except.ok ⟨[], [] ++ [g], [] ++ scopeWarnings exConf recFeat.hash none⟩ ∧
      g.name = "v1" ∧
      ∃ v, lookupAssoc g.commits "Features" = some v ∧ recFeat ∈ v :=
  ⟨rfl, rfl, rfl, rfl, rfl,
    c1_boundary_closes_group exKinds exConf [("aaa", "v1")] ⟨[], [], []⟩
      cdFeat recFeat "feat" "Features" "v1" none rfl rfl rfl rfl rfl⟩

/-- C2, counterexample: the claim asserts that a failing tag-name
resolution is warned about and skipped "without failing".  In the code the
`revparse_single` error is propagated with `?`, so one failing resolution
makes the whole index build — and the whole repository — fail, losing even
the later, perfectly resolvable annotated tag. -/
theorem c2_counterexample :
    buildTagIndex [TagResolution.err, TagResolution.annotated "aaa" "v1"] =
      Except.error "could not retrieve object for tag" ∧
    repositoryTryFrom exKinds exConf
        ⟨[TagResolution.err, TagResolution.annotated "aaa" "v1"], [cdFeat]⟩ =
      Except.error "could not retrieve object for tag" := by
  refine ⟨rfl, rfl⟩

/-- C2, amended: while building the Tag Index, when no enumerated tag
name fails to resolve, the build succeeds; a resolved object that is not
an annotated tag object (e.g. a lightweight tag) is warned about and
produces no entry, and every index entry (pointed-at commit id ↦ display
name) stems from an annotated tag — lightweight tags never create release
boundaries.  A failing resolution, however, aborts the repository instead
of being skipped (see the counterexample). -/
theorem c2_tag_index (rs : List TagResolution)
    (h : TagResolution.err ∉ rs) :
    ∃ idx log, buildTagIndex rs = Except.ok (idx, log) ∧
      (∀ k v, (k, v) ∈ idx → TagResolution.annotated k v ∈ rs) ∧
      (∀ oid, TagResolution.notTag oid ∈ rs →
        LogEntry.lightweightTag (oid.take 7) ∈ log) := by
  rcases buildTagIndexAux_ok rs [] [] h with
    ⟨idx, log, hb, hidx, hwarn, _⟩
  refine ⟨idx, log, hb, fun k v hk => ?_, hwarn⟩
  rcases hidx k v hk with h2 | h2
  · exact absurd h2 (List.not_mem_nil _)
  · exact h2

/-- C2, witness: a lightweight tag and an annotated tag, no resolution
failure. -/
theorem c2_tag_index_witness :
    TagResolution.err ∉
      [TagResolution.notTag "abcdefgh123", TagResolution.annotated "aaa" "v1"] ∧
    ∃ idx log,
      buildTagIndex
          [TagResolution.notTag "abcdefgh123",
            TagResolution.annotated "aaa" "v1"] =
        Except.ok (idx, log) ∧
      (∀ k v, (k, v) ∈ idx →
        TagResolution.annotated k v ∈
          [TagResolution.notTag "abcdefgh123",
            TagResolution.annotated "aaa" "v1"]) ∧
      (∀ oid, TagResolution.notTag oid ∈
          [TagResolution.notTag "abcdefgh123",
            TagResolution.annotated "aaa" "v1"] →
        LogEntry.lightweightTag (oid.take 7) ∈ log) :=
  ⟨by decide,
    c2_tag_index
      [TagResolution.notTag "abcdefgh123", TagResolution.annotated "aaa" "v1"]
      (by decide)⟩

/-- C4: when the repository restricts scopes and some comma-separated
sub-scope of a matched scope is absent from the allowed set, a warning is
logged but the commit is still pushed into its kind bucket — whereas a
kind absent from the vocabulary does exclude the commit (only log entries
are added, the accumulator is untouched). -/
theorem c4_scope_warning_nonblocking (kinds : List (String × String))
    (conf : ConfRepository) (tagIdx : List (String × String))
    (st : StepState) (cd : CommitData) (c : Commit)
    (kind sc label ss : String) (allowed : List String)
    (h : commitTryFrom conf cd = Except.ok c)
    (hm : isMergeMessage c.message = false)
    (hf : findCaptures c.message.toList = some (kind, some sc))
    (hl : lookupAssoc kinds kind = some label)
    (hallowed : conf.scopes = some allowed)
    (hss : ss ∈ splitCommaStr sc)
    (hmiss : allowed.contains ss = false)
    (ht : lookupAssoc tagIdx cd.id = none) :
    (processCommit kinds conf tagIdx st cd =
        Except.ok
          { st with
            commits := pushKind st.commits label c,
            log := st.log ++ scopeWarnings conf c.hash (some sc) } ∧
      LogEntry.scopeWarn c.hash sc ∈ scopeWarnings conf c.hash (some sc) ∧
      ∃ v, lookupAssoc (pushKind st.commits label c) label = some v ∧
        c ∈ v) ∧
    (∀ (st' : StepState) (cd' : CommitData) (c' : Commit) (kind' : String)
        (scope' : Option String),
      commitTryFrom conf cd' = Except.ok c' →
      isMergeMessage c'.message = false →
      findCaptures c'.message.toList = some (kind', scope') →
      lookupAssoc kinds kind' = none →
      processCommit kinds conf tagIdx st' cd' =
        Except.ok
          { st' with
            log := st'.log ++ [LogEntry.unknownKind c'.hash kind',
              LogEntry.skipCommit c'.hash] }) := by
  refine ⟨⟨processCommit_push kinds conf tagIdx st cd c kind label (some sc)
      h hm hf hl ht, ?_, pushKind_lookup st.commits label c⟩,
    fun st' cd' c' kind' scope' h' hm' hf' hl' =>
      processCommit_unknownKind kinds conf tagIdx st' cd' c' kind' scope'
        h' hm' hf' hl'⟩
  simp only [scopeWarnings, hallowed]
  exact List.mem_map.mpr
    ⟨ss, List.mem_filter.mpr ⟨hss, by simpa using hmiss⟩, rfl⟩

/-- C4, witness: `feat(web): two` under an allowed-scope set `[api]`. -/
theorem c4_scope_warning_nonblocking_witness :
    commitTryFrom exConfScoped cdScoped = Except.ok recScoped ∧
    isMergeMessage recScoped.message = false ∧
    findCaptures recScoped.message.toList = some ("feat", some "web") ∧
    lookupAssoc exKinds "feat" = some "Features" ∧
    exConfScoped.scopes = some ["api"] ∧
    "web" ∈ splitCommaStr "web" ∧
    List.contains ["api"] "web" = false ∧
    lookupAssoc ([] : List (String × String)) cdScoped.id = none ∧
    (processCommit exKinds exConfScoped [] ⟨[], [], []⟩ cdScoped =
        Except.ok
          { StepState.mk [] [] [] with
            commits := pushKind [] "Features" recScoped,
            log := [] ++ scopeWarnings exConfScoped recScoped.hash
              (some "web") } ∧
      LogEntry.scopeWarn recScoped.hash "web" ∈
        scopeWarnings exConfScoped recScoped.hash (some "web") ∧
      ∃ v, lookupAssoc (pushKind [] "Features" recScoped) "Features" =
          some v ∧ recScoped ∈ v) :=
  ⟨rfl, rfl, rfl, rfl, rfl, by decide, by decide, rfl,
    (c4_scope_warning_nonblocking exKinds exConfScoped [] ⟨[], [], []⟩
      cdScoped recScoped "feat" "web" "Features" "web" ["api"] rfl rfl rfl
      rfl rfl (by decide) (by decide) rfl).1⟩

/-- C5: a normalization failure (no identity, no message, or a failing
link substitution — any `commitTryFrom` error) aborts the whole
repository with an error naming the commit id; when every walked commit
normalizes, the walk always succeeds, whatever the classification
outcomes (merge prefix, unparseable message, unknown kind) — so
classification failures never abort. -/
theorem c5_normalization_fatal :
    (∀ (kinds : List (String × String)) (conf : ConfRepository)
        (gd : GitData) (pre : List CommitData) (cd : CommitData)
        (suf : List CommitData) (e : String)
        (tagIdx : List (String × String)) (log0 : List LogEntry),
      gd.commits = pre ++ cd :: suf →
      buildTagIndex gd.tagResolutions = Except.ok (tagIdx, log0) →
      (∀ x ∈ pre, ∃ cx, commitTryFrom conf x = Except.ok cx) →
      commitTryFrom conf cd = Except.error e →
      repositoryTryFrom kinds conf gd =
        Except.error ("could not parse commit '" ++ cd.id ++ "', " ++ e)) ∧
    (∀ (kinds : List (String × String)) (conf : ConfRepository)
        (gd : GitData) (tagIdx : List (String × String))
        (log0 : List LogEntry),
      buildTagIndex gd.tagResolutions = Except.ok (tagIdx, log0) →
      (∀ x ∈ gd.commits, ∃ cx, commitTryFrom conf x = Except.ok cx) →
      ∃ res, repositoryTryFrom kinds conf gd = Except.ok res) ∧
    (∀ (conf : ConfRepository) (cd : CommitData),
      cd.authorName = none → cd.committerName = none →
      commitTryFrom conf cd = Except.error "No such author or commiter") ∧
    (∀ (conf : ConfRepository) (cd : CommitData) (a : String),
      cd.authorName = some a → cd.summary = none → cd.messageBody = none →
      commitTryFrom conf cd = Except.error "No such message or summary") := by
  refine ⟨?_, ?_, ?_, ?_⟩
  · intro kinds conf gd pre cd suf e tagIdx log0 hc hb hpre hcd
    unfold repositoryTryFrom
    simp only [hb]
    rw [hc,
      walkCommits_err kinds conf tagIdx pre cd suf e hpre hcd ⟨[], [], log0⟩]
  · intro kinds conf gd tagIdx log0 hb hall
    rcases walkCommits_ok kinds conf tagIdx gd.commits hall ⟨[], [], log0⟩
      with ⟨fin, hw⟩
    refine ⟨(⟨conf.name,
      (if fin.commits.isEmpty then fin.groups
        else fin.groups ++ [⟨"Technical preview", fin.commits⟩]).reverse⟩,
      fin.log), ?_⟩
    unfold repositoryTryFrom
    simp only [hb, hw]
  · intro conf cd h1 h2
    unfold commitTryFrom
    rw [h1, h2]
    rfl
  · intro conf cd a h1 h2 h3
    unfold commitTryFrom
    rw [h1, h2, h3]
    rfl

/-- C5, witness: the second walked commit has no identity; the whole
repository fails with its id in the error. -/
theorem c5_normalization_fatal_witness :
    gdNoAuthor.commits = [cdFeat] ++ cdNoAuthor :: [] ∧
    buildTagIndex gdNoAuthor.tagResolutions = Except.ok ([], []) ∧
    (∀ x ∈ [cdFeat], ∃ cx, commitTryFrom exConf x = Except.ok cx) ∧
    commitTryFrom exConf cdNoAuthor =
      Except.error "No such author or commiter" ∧
    repositoryTryFrom exKinds exConf gdNoAuthor =
      Except.error ("could not parse commit '" ++ cdNoAuthor.id ++ "', "
        ++ "No such author or commiter") := by
  have hpre : ∀ x ∈ [cdFeat], ∃ cx, commitTryFrom exConf x = Except.ok cx := by
    intro x hx
    rw [List.mem_singleton] at hx
    subst hx
    exact ⟨recFeat, rfl⟩
  exact ⟨rfl, rfl, hpre, rfl,
    c5_normalization_fatal.1 exKinds exConf gdNoAuthor [cdFeat] cdNoAuthor []
      "No such author or commiter" [] [] rfl rfl hpre rfl⟩

/-- C6: after the walk completes, the accumulator — when non-empty — is
closed into exactly one final "Technical preview" group (none is created
when it is empty), and the group list is reversed, so the caller observes
releases newest-first. -/
theorem c6_finalize (kinds : List (String × String)) (conf : ConfRepository)
    (gd : GitData) (tagIdx : List (String × String)) (log0 : List LogEntry)
    (fin : StepState)
    (hb : buildTagIndex gd.tagResolutions = Except.ok (tagIdx, log0))
    (hw : walkCommits kinds conf tagIdx ⟨[], [], log0⟩ gd.commits =
      Except.ok fin) :
    ∃ r, repositoryTryFrom kinds conf gd = Except.ok (r, fin.log) ∧
      (fin.commits = [] → r.tags = fin.groups.reverse) ∧
      (fin.commits ≠ [] →
        r.tags = ⟨"Technical preview", fin.commits⟩ :: fin.groups.reverse) := by
  by_cases hc : fin.commits = []
  · refine ⟨⟨conf.name, fin.groups.reverse⟩, ?_, fun _ => rfl,
      fun hne => absurd hc hne⟩
    unfold repositoryTryFrom
    simp only [hb, hw]
    simp [hc]
  · refine ⟨⟨conf.name,
      ⟨"Technical preview", fin.commits⟩ :: fin.groups.reverse⟩, ?_,
      fun heq => absurd heq hc, fun _ => rfl⟩
    unfold repositoryTryFrom
    simp only [hb, hw]
    simp [hc]

/-- C6, witness: one unflushed feature commit yields the "Technical
preview" group first. -/
theorem c6_finalize_witness :
    buildTagIndex gdTagOnMerge.tagResolutions =
      Except.ok ([("bbb", "v1")], []) ∧
    walkCommits exKinds exConf [("bbb", "v1")] ⟨[], [], []⟩
        gdTagOnMerge.commits =
      Except.ok ⟨[("Features", [recFeat])], [], [LogEntry.skipMerge "bbb"]⟩ ∧
    ∃ r, repositoryTryFrom exKinds exConf gdTagOnMerge =
        Except.ok (r,
          StepState.log ⟨[("Features", [recFeat])], [],
            [LogEntry.skipMerge "bbb"]⟩) ∧
      (StepState.commits
          ⟨[("Features", [recFeat])], [], [LogEntry.skipMerge "bbb"]⟩ = [] →
        r.tags = (StepState.groups ⟨[("Features", [recFeat])], [],
          [LogEntry.skipMerge "bbb"]⟩).reverse) ∧
      (StepState.commits
          ⟨[("Features", [recFeat])], [], [LogEntry.skipMerge "bbb"]⟩ ≠ [] →
        r.tags =
          ⟨"Technical preview",
            StepState.commits ⟨[("Features", [recFeat])], [],
              [LogEntry.skipMerge "bbb"]⟩⟩ ::
            (StepState.groups ⟨[("Features", [recFeat])], [],
              [LogEntry.skipMerge "bbb"]⟩).reverse) :=
  ⟨rfl, rfl,
    c6_finalize exKinds exConf gdTagOnMerge [("bbb", "v1")] []
      ⟨[("Features", [recFeat])], [], [LogEntry.skipMerge "bbb"]⟩ rfl rfl⟩

/-- C7: a normalized non-merge commit is classified successfully exactly
when the pattern finds a match in its summary and the extracted kind is a
key of the configured kind map; it is then stored under the canonical
label the map assigns to that kind, and otherwise (no pattern match, or
unknown kind) it is skipped with warning log entries and the accumulator
is untouched. -/
theorem c7_classification (kinds : List (String × String))
    (conf : ConfRepository) (tagIdx : List (String × String))
    (st : StepState) (cd : CommitData) (c : Commit)
    (h : commitTryFrom conf cd = Except.ok c)
    (hm : isMergeMessage c.message = false)
    (ht : lookupAssoc tagIdx cd.id = none) :
    (∀ (kind : String) (scope : Option String) (label : String),
      findCaptures c.message.toList = some (kind, scope) →
      lookupAssoc kinds kind = some label →
      processCommit kinds conf tagIdx st cd =
        Except.ok
          { st with
            commits := pushKind st.commits label c,
            log := st.log ++ scopeWarnings conf c.hash scope } ∧
      ∃ v, lookupAssoc (pushKind st.commits label c) label = some v ∧
        c ∈ v) ∧
    (∀ (kind : String) (scope : Option String),
      findCaptures c.message.toList = some (kind, scope) →
      lookupAssoc kinds kind = none →
      processCommit kinds conf tagIdx st cd =
        Except.ok
          { st with
            log := st.log ++ [LogEntry.unknownKind c.hash kind,
              LogEntry.skipCommit c.hash] }) ∧
    (findCaptures c.message.toList = none →
      processCommit kinds conf tagIdx st cd =
        Except.ok
          { st with
            log := st.log ++ [LogEntry.parseError c.hash c.message] }) :=
  ⟨fun kind scope label hf hl =>
    ⟨processCommit_push kinds conf tagIdx st cd c kind label scope
        h hm hf hl ht,
      pushKind_lookup st.commits label c⟩,
    fun kind scope hf hl =>
      processCommit_unknownKind kinds conf tagIdx st cd c kind scope
        h hm hf hl,
    fun hf => processCommit_noParse kinds conf tagIdx st cd c h hm hf⟩

/-- C7, witness: the specification's worked example
`feat(api): add endpoint` with vocabulary `feat ↦ Features`. -/
theorem c7_classification_witness :
    commitTryFrom exConf cdApi = Except.ok recApi ∧
    isMergeMessage recApi.message = false ∧
    lookupAssoc ([] : List (String × String)) cdApi.id = none ∧
    findCaptures recApi.message.toList = some ("feat", some "api") ∧
    lookupAssoc exKinds "feat" = some "Features" ∧
    (processCommit exKinds exConf [] ⟨[], [], []⟩ cdApi =
        Except.ok
          { StepState.mk [] [] [] with
            commits := pushKind [] "Features" recApi,
            log := [] ++ scopeWarnings exConf recApi.hash (some "api") } ∧
      ∃ v, lookupAssoc (pushKind [] "Features" recApi) "Features" =
          some v ∧ recApi ∈ v) :=
  ⟨rfl, rfl, rfl, rfl, rfl,
    (c7_classification exKinds exConf [] ⟨[], [], []⟩ cdApi recApi rfl rfl
        rfl).1
      "feat" (some "api") "Features" rfl rfl⟩

/-- C8: every kind label under which a commit is stored in any
ReleaseGroup of the returned model is the canonical label that
`Configuration.kinds` assigns to some key — commits with a kind absent
from the mapping are dropped before grouping, never stored under an
unknown label. -/
theorem c8_kinds_closed (kinds : List (String × String))
    (conf : ConfRepository) (gd : GitData) (r : Repository)
    (log : List LogEntry)
    (h : repositoryTryFrom kinds conf gd = Except.ok (r, log)) :
    ∀ t ∈ r.tags, ∀ p ∈ t.commits, ∃ k, lookupAssoc kinds k = some p.1 := by
  rcases repositoryTryFrom_ok kinds conf gd r log h with
    ⟨tagIdx, log0, fin, hb, hw, htags⟩
  have hstep : ∀ (st : StepState) (cd : CommitData) (st' : StepState),
      ((∀ p ∈ st.commits, ∃ k, lookupAssoc kinds k = some p.1) ∧
        (∀ t ∈ st.groups, ∀ p ∈ t.commits,
          ∃ k, lookupAssoc kinds k = some p.1)) →
      processCommit kinds conf tagIdx st cd = Except.ok st' →
      ((∀ p ∈ st'.commits, ∃ k, lookupAssoc kinds k = some p.1) ∧
        (∀ t ∈ st'.groups, ∀ p ∈ t.commits,
          ∃ k, lookupAssoc kinds k = some p.1)) := by
    intro st cd st' hP hpc
    rcases processCommit_cases kinds conf tagIdx st cd st' hpc with
      ⟨h1, h2⟩ | ⟨c, kind, label, _, hl, h1, h2⟩ |
      ⟨c, kind, label, tname, _, hl, h1, h2⟩
    · exact ⟨h1 ▸ hP.1, h2 ▸ hP.2⟩
    · refine ⟨?_, h2 ▸ hP.2⟩
      rw [h1]
      intro p hp
      rcases pushKind_mem st.commits label c p hp with hpl | hpm
      · exact ⟨kind, by rw [hl, hpl]⟩
      · exact hP.1 p hpm
    · refine ⟨?_, ?_⟩
      · rw [h1]
        exact fun p hp => absurd hp (List.not_mem_nil p)
      · rw [h2]
        intro t ht p hp
        rcases List.mem_append.mp ht with h3 | h3
        · exact hP.2 t h3 p hp
        · have ht2 : t = ⟨tname, pushKind st.commits label c⟩ := by
            simpa using h3
          subst ht2
          rcases pushKind_mem st.commits label c p hp with hpl | hpm
          · exact ⟨kind, by rw [hl, hpl]⟩
          · exact hP.1 p hpm
  have hinv := walkCommits_inv kinds conf tagIdx _ hstep gd.commits
    ⟨[], [], log0⟩ fin
    ⟨fun p hp => absurd hp (List.not_mem_nil p),
      fun t ht => absurd ht (List.not_mem_nil t)⟩ hw
  intro t ht p hp
  rw [htags, List.mem_reverse] at ht
  by_cases hc : fin.commits.isEmpty
  · rw [if_pos hc] at ht
    exact hinv.2 t ht p hp
  · rw [if_neg hc] at ht
    rcases List.mem_append.mp ht with h1 | h1
    · exact hinv.2 t h1 p hp
    · have ht2 : t = ⟨"Technical preview", fin.commits⟩ := by simpa using h1
      subst ht2
      exact hinv.1 p hp

/-- C8, witness: the single group of the concrete walk only stores the
label `Features`, the canonical label of `feat`. -/
theorem c8_kinds_closed_witness :
    repositoryTryFrom exKinds exConf gdTagOnMerge =
      Except.ok
        (⟨"r", [⟨"Technical preview", [("Features", [recFeat])]⟩]⟩,
          [LogEntry.skipMerge "bbb"]) ∧
    ∀ t ∈ Repository.tags
        ⟨"r", [⟨"Technical preview", [("Features", [recFeat])]⟩]⟩,
      ∀ p ∈ t.commits, ∃ k, lookupAssoc exKinds k = some p.1 :=
  ⟨rfl,
    c8_kinds_closed exKinds exConf gdTagOnMerge
      ⟨"r", [⟨"Technical preview", [("Features", [recFeat])]⟩]⟩
      [LogEntry.skipMerge "bbb"] rfl⟩

/-- C9: the assembler processes the configured repositories in
configuration order; one failing repository fails the whole run with an
error wrapped with that repository's name (no partial model), and when
all succeed the model has one result per configured repository, in
configuration order (names matching). -/
theorem c9_assembler :
    (∀ (conf : Configuration) (git : ConfRepository → GitData)
        (pre : List ConfRepository) (r : ConfRepository)
        (suf : List ConfRepository) (e : String),
      conf.repositories = pre ++ r :: suf →
      (∀ p ∈ pre, ∃ okp,
        repositoryTryFrom conf.kinds p (git p) = Except.ok okp) →
      repositoryTryFrom conf.kinds r (git r) = Except.error e →
      changelogTryFrom conf git =
        Except.error
          ("could not process repository '" ++ r.name ++ "', " ++ e)) ∧
    (∀ (conf : Configuration) (git : ConfRepository → GitData),
      (∀ p ∈ conf.repositories, ∃ okp,
        repositoryTryFrom conf.kinds p (git p) = Except.ok okp) →
      ∃ ch, changelogTryFrom conf git = Except.ok ch ∧
        ch.repositories.map Repository.name =
          conf.repositories.map ConfRepository.name) := by
  constructor
  · intro conf git pre r suf e hconf hpre hr
    unfold changelogTryFrom
    rw [hconf]
    simp only [assembleRepos_err conf.kinds git pre r suf e hpre hr]
  · intro conf git hall
    rcases assembleRepos_ok conf.kinds git conf.repositories hall with
      ⟨repos, hrep, hnames⟩
    refine ⟨⟨repos⟩, ?_, hnames⟩
    unfold changelogTryFrom
    simp only [hrep]

/-- C9, witness: a one-repository configuration whose walk succeeds. -/
theorem c9_assembler_witness :
    (∀ p ∈ exConfiguration.repositories, ∃ okp,
      repositoryTryFrom exConfiguration.kinds p (exGit p) = Except.ok okp) ∧
    ∃ ch, changelogTryFrom exConfiguration exGit = Except.ok ch ∧
      ch.repositories.map Repository.name =
        exConfiguration.repositories.map ConfRepository.name := by
  have hall : ∀ p ∈ exConfiguration.repositories, ∃ okp,
      repositoryTryFrom exConfiguration.kinds p (exGit p) = Except.ok okp := by
    intro p hp
    have hpe : p = exConf := by
      simpa [exConfiguration] using hp
    subst hpe
    exact ⟨(⟨"r", [⟨"Technical preview", [("Features", [recFeat])]⟩]⟩,
      [LogEntry.skipMerge "bbb"]), rfl⟩
  exact ⟨hall, c9_assembler.2 exConfiguration exGit hall⟩

/-- C10: every ReleaseGroup of a returned repository is non-empty — its
bucket map holds at least one kind, and every bucket holds at least one
commit.  Tag-named groups are closed only right after a push, and the
"Technical preview" group is only created from a non-empty
accumulator. -/
theorem c10_groups_nonempty (kinds : List (String × String))
    (conf : ConfRepository) (gd : GitData) (r : Repository)
    (log : List LogEntry)
    (h : repositoryTryFrom kinds conf gd = Except.ok (r, log)) :
    ∀ t ∈ r.tags, t.commits ≠ [] ∧ ∀ p ∈ t.commits, p.2 ≠ [] := by
  rcases repositoryTryFrom_ok kinds conf gd r log h with
    ⟨tagIdx, log0, fin, hb, hw, htags⟩
  have hstep : ∀ (st : StepState) (cd : CommitData) (st' : StepState),
      ((∀ p ∈ st.commits, p.2 ≠ []) ∧
        (∀ t ∈ st.groups, t.commits ≠ [] ∧ ∀ p ∈ t.commits, p.2 ≠ [])) →
      processCommit kinds conf tagIdx st cd = Except.ok st' →
      ((∀ p ∈ st'.commits, p.2 ≠ []) ∧
        (∀ t ∈ st'.groups, t.commits ≠ [] ∧ ∀ p ∈ t.commits, p.2 ≠ [])) := by
    intro st cd st' hP hpc
    rcases processCommit_cases kinds conf tagIdx st cd st' hpc with
      ⟨h1, h2⟩ | ⟨c, kind, label, _, hl, h1, h2⟩ |
      ⟨c, kind, label, tname, _, hl, h1, h2⟩
    · exact ⟨h1 ▸ hP.1, h2 ▸ hP.2⟩
    · refine ⟨?_, h2 ▸ hP.2⟩
      rw [h1]
      exact pushKind_buckets st.commits label c hP.1
    · refine ⟨?_, ?_⟩
      · rw [h1]
        exact fun p hp => absurd hp (List.not_mem_nil p)
      · rw [h2]
        intro t ht
        rcases List.mem_append.mp ht with h3 | h3
        · exact hP.2 t h3
        · have ht2 : t = ⟨tname, pushKind st.commits label c⟩ := by
            simpa using h3
          subst ht2
          exact ⟨pushKind_ne_nil st.commits label c,
            pushKind_buckets st.commits label c hP.1⟩
  have hinv := walkCommits_inv kinds conf tagIdx _ hstep gd.commits
    ⟨[], [], log0⟩ fin
    ⟨fun p hp => absurd hp (List.not_mem_nil p),
      fun t ht => absurd ht (List.not_mem_nil t)⟩ hw
  intro t ht
  rw [htags, List.mem_reverse] at ht
  by_cases hc : fin.commits.isEmpty
  · rw [if_pos hc] at ht
    exact hinv.2 t ht
  · rw [if_neg hc] at ht
    rcases List.mem_append.mp ht with h1 | h1
    · exact hinv.2 t h1
    · have ht2 : t = ⟨"Technical preview", fin.commits⟩ := by simpa using h1
      subst ht2
      refine ⟨?_, hinv.1⟩
      intro hnil
      simp only [] at hnil
      exact hc (by simp [hnil])

/-- C10, witness: the single concrete group is non-empty with a non-empty
bucket. -/
theorem c10_groups_nonempty_witness :
    repositoryTryFrom exKinds exConf gdTagOnMerge =
      Except.ok
        (⟨"r", [⟨"Technical preview", [("Features", [recFeat])]⟩]⟩,
          [LogEntry.skipMerge "bbb"]) ∧
    ∀ t ∈ Repository.tags
        ⟨"r", [⟨"Technical preview", [("Features", [recFeat])]⟩]⟩,
      t.commits ≠ [] ∧ ∀ p ∈ t.commits, p.2 ≠ [] :=
  ⟨rfl,
    c10_groups_nonempty exKinds exConf gdTagOnMerge
      ⟨"r", [⟨"Technical preview", [("Features", [recFeat])]⟩]⟩
      [LogEntry.skipMerge "bbb"] rfl⟩

end GitChangelog
